import Mathlib

/-!
Verification development for the LatexRenderer repository's core logic:

* the content segmenter `parseContent` from
  `src/components/PerformanceTestScreen.tsx` (lines 30-103), which splits a
  raw string into text and math segments using the two regexes
  `/\$\$([\s\S]*?)\$\$/g` (display math) and `/\$([^\$]+?)\$/g` (inline math),
  a nesting-exclusion check, and a currency heuristic; and

* the two evolutions of the LaTeX pre-validator `validateLatex` from
  `src/components/LatexRenderer.tsx` (lines 59-406: brace balance,
  incomplete-command patterns, unknown-command allow-list; and lines 583-603:
  the same without the allow-list check).

Strings are modelled as `List Char`; the JavaScript regex loops are modelled
as single-pass character scanners with explicit states that realise exactly
the non-greedy leftmost-match semantics of the two `exec` loops.
-/

namespace LatexRenderer

/-- JavaScript whitespace as used by `String.prototype.trim` and the regex
class `\s` (ASCII range: space, tab, newline, carriage return, vertical tab,
form feed). -/
def isWSJS (c : Char) : Bool :=
  c = ' ' || c = '\t' || c = '\n' || c = '\r' || c = Char.ofNat 11 || c = Char.ofNat 12

/-- JavaScript `String.prototype.trim`: strip leading and trailing whitespace. -/
def jsTrim (s : List Char) : List Char :=
  ((s.dropWhile isWSJS).reverse.dropWhile isWSJS).reverse

/-- A candidate math match, the `MathMatch` record of `parseContent`:
start offset, end offset (exclusive, the source field is named `end`),
extracted interior already trimmed, and the display flag. -/
structure MathMatch where
  start : Nat
  stop : Nat
  content : List Char
  display : Bool
deriving DecidableEq, Repr

/-- Scanner state for the display-math regex `/\$\$([\s\S]*?)\$\$/g`:
outside any candidate; after a single `$` (at the recorded position);
inside a `$$`-opened span (recorded start, interior so far); or inside a
span having just seen one closing `$`. -/
inductive DState where
  | out : DState
  | halfOpen : Nat → DState
  | inside : Nat → List Char → DState
  | closing : Nat → List Char → DState
deriving DecidableEq, Repr

/-- One-pass realisation of the `displayRegex.exec` loop of `parseContent`:
the non-greedy `/\$\$([\s\S]*?)\$\$/g` finds, left to right, each `$$`
opener followed by the shortest interior up to the next `$$`, and resumes
after the closing delimiter.  `pos` is the absolute offset of the head of
the remaining input. -/
def runDisplay : List Char → Nat → DState → List MathMatch
  | [], _, _ => []
  | c :: rest, pos, DState.out =>
      runDisplay rest (pos + 1) (if c = '$' then DState.halfOpen pos else DState.out)
  | c :: rest, pos, DState.halfOpen p =>
      if c = '$' then runDisplay rest (pos + 1) (DState.inside p [])
      else runDisplay rest (pos + 1) DState.out
  | c :: rest, pos, DState.inside p acc =>
      if c = '$' then runDisplay rest (pos + 1) (DState.closing p acc)
      else runDisplay rest (pos + 1) (DState.inside p (acc ++ [c]))
  | c :: rest, pos, DState.closing p acc =>
      if c = '$' then
        ⟨p, pos + 1, jsTrim acc, true⟩ :: runDisplay rest (pos + 1) DState.out
      else runDisplay rest (pos + 1) (DState.inside p (acc ++ ['$', c]))

/-- All display-math candidates of the input, in match order
(the first `while` loop of `parseContent`, lines 47-54). -/
def findDisplayMatches (s : List Char) : List MathMatch :=
  runDisplay s 0 DState.out

/-- Scanner state for the inline-math regex `/\$([^\$]+?)\$/g`: outside a
candidate, or after an opening `$` at the recorded position with the
interior collected so far. -/
inductive IState where
  | out : IState
  | inside : Nat → List Char → IState
deriving DecidableEq, Repr

/-- One-pass realisation of the `inlineRegex.exec` loop of `parseContent`:
`/\$([^\$]+?)\$/g` matches an opening `$`, a nonempty interior free of `$`,
and the next `$`; on `$$` the first dollar cannot match and the engine
retries from the second. -/
def runInline : List Char → Nat → IState → List MathMatch
  | [], _, _ => []
  | c :: rest, pos, IState.out =>
      runInline rest (pos + 1) (if c = '$' then IState.inside pos [] else IState.out)
  | c :: rest, pos, IState.inside p acc =>
      if c = '$' then
        if acc = [] then runInline rest (pos + 1) (IState.inside pos [])
        else ⟨p, pos + 1, jsTrim acc, false⟩ :: runInline rest (pos + 1) IState.out
      else runInline rest (pos + 1) (IState.inside p (acc ++ [c]))

/-- All inline-math candidates of the input, in match order
(the second `while` loop of `parseContent`, lines 56-72, before the
nesting and currency filters). -/
def findInlineMatches (s : List Char) : List MathMatch :=
  runInline s 0 IState.out

/-- The currency heuristic `/^\d+(\.\d+)?$/` of `parseContent` line 62,
applied to the trimmed interior: one or more digits, optionally followed
by a decimal point and one or more digits. -/
def isCurrency (s : List Char) : Bool :=
  let d := s.takeWhile Char.isDigit
  let r := s.dropWhile Char.isDigit
  decide (d ≠ []) &&
    (decide (r = []) ||
      (match r with
       | '.' :: r2 =>
           decide (r2.takeWhile Char.isDigit ≠ []) &&
             decide (r2.dropWhile Char.isDigit = [])
       | _ => false))

/-- The body of the inline `while` loop (lines 56-72): each inline candidate
is appended to `allMatches` (which initially holds the display candidates)
unless its start index lies strictly inside an already-collected match
(`insideDisplay`) or its trimmed interior looks like a currency amount. -/
def pushInlineMatches : List MathMatch → List MathMatch → List MathMatch
  | acc, [] => acc
  | acc, m :: rest =>
      let insideDisplay := acc.any fun dm =>
        decide (dm.start < m.start) && decide (m.start < dm.stop)
      if insideDisplay then pushInlineMatches acc rest
      else if isCurrency m.content then pushInlineMatches acc rest
      else pushInlineMatches (acc ++ [m]) rest

/-- Insert a match into a list sorted by ascending `start`
(the comparator `(a, b) => a.start - b.start` of line 74). -/
def insertByStart (m : MathMatch) : List MathMatch → List MathMatch
  | [] => [m]
  | x :: xs => if m.start ≤ x.start then m :: x :: xs else x :: insertByStart m xs

/-- Stable sort by ascending `start` (line 74's `allMatches.sort`). -/
def sortByStart (l : List MathMatch) : List MathMatch :=
  l.foldr insertByStart []

/-- The sorted surviving candidate list that `parseContent` walks:
display matches, then filtered inline matches, sorted by start offset. -/
def allMathMatches (s : List Char) : List MathMatch :=
  sortByStart (pushInlineMatches (findDisplayMatches s) (findInlineMatches s))

/-- The `type` discriminator of a `ContentPart` (`'text' | 'latex'`). -/
inductive PartType where
  | text : PartType
  | latex : PartType
deriving DecidableEq, Repr

/-- The `ContentPart` record: segment type, content, and the optional
display flag (absent on text parts). -/
structure ContentPart where
  type : PartType
  content : List Char
  display : Option Bool
deriving DecidableEq, Repr

/-- `content.substring(a, b)` for the in-range uses in `parseContent`
(`a ≤ b`; JavaScript clamps `b` to the length). -/
def substrJS (s : List Char) (a b : Nat) : List Char :=
  (s.take b).drop a

/-- The `allMatches.forEach` walk of lines 76-89: for each candidate, emit
the text gap since the cursor when nonempty, then the math part, and move
the cursor to the candidate's end.  Returns the parts and the final cursor. -/
def buildLoop (content : List Char) : List MathMatch → Nat → List ContentPart × Nat
  | [], cur => ([], cur)
  | m :: rest, cur =>
      let pre : List ContentPart :=
        if cur < m.start then [⟨PartType.text, substrJS content cur m.start, none⟩] else []
      let pr := buildLoop content rest m.stop
      (pre ++ ⟨PartType.latex, m.content, some m.display⟩ :: pr.1, pr.2)

/-- `parseContent` (lines 30-103): collect display and inline candidates,
filter, sort, walk emitting text gaps and math parts, emit the trailing
text, and fall back to a single text part when nothing was emitted. -/
def parseContent (content : List Char) : List ContentPart :=
  let sorted := allMathMatches content
  let pr := buildLoop content sorted 0
  let ps2 :=
    if pr.2 < content.length then
      pr.1 ++ [⟨PartType.text, content.drop pr.2, none⟩]
    else pr.1
  if ps2 = [] then [⟨PartType.text, content, none⟩] else ps2

/-- The source spans `[fst, snd)` occupied by the parts that
`parseContent` emits, in emission order: each text gap `[cursor, start)`,
each candidate's own span `[start, stop)`, and the trailing text span. -/
def buildSpans (len : Nat) : List MathMatch → Nat → List (Nat × Nat)
  | [], cur => if cur < len then [(cur, len)] else []
  | m :: rest, cur =>
      (if cur < m.start then [(cur, m.start)] else [])
        ++ (m.start, m.stop) :: buildSpans len rest m.stop

/-- The spans of the segments returned by `parseContent`; the degenerate
no-part case (empty input) contributes the empty span `(0, 0)`. -/
def parseSpans (content : List Char) : List (Nat × Nat) :=
  let spans := buildSpans content.length (allMathMatches content) 0
  if spans = [] then [(0, 0)] else spans

/-- Reconstruction of the input from the emitted segments, re-adding the
stripped delimiters and original whitespace around each math interior:
every part contributes the original text of its source span. -/
def reconLoop (content : List Char) : List MathMatch → Nat → List Char
  | [], cur => content.drop cur
  | m :: rest, cur =>
      substrJS content cur m.start ++ substrJS content m.start m.stop
        ++ reconLoop content rest m.stop

/-- Concatenation of all segment contents with delimiters and interior
whitespace re-added (the round-trip read-back of `parseContent`). -/
def reconstructSegments (content : List Char) : List Char :=
  reconLoop content (allMathMatches content) 0

/-! ## The expression pre-validator (`validateLatex`, both evolutions) -/

/-- Diagnostic for a brace counter that went negative (line 65). -/
def extraBraceMsg : String := "Mismatched braces: extra closing brace"

/-- Diagnostic for a brace counter left positive after the scan (line 67). -/
def missingBraceMsg : String := "Mismatched braces: missing closing brace"

/-- The brace-balance scan of `validateLatex` (lines 61-67): walk the
characters with a counter, incrementing on `{` and decrementing on `}`;
fail immediately if the counter goes negative, and fail at the end if it
is still positive. -/
def braceScan : List Char → Int → Option String
  | [], n => if n > 0 then some missingBraceMsg else none
  | c :: rest, n =>
      let n' : Int := if c = '{' then n + 1 else if c = '}' then n - 1 else n
      if n' < 0 then some extraBraceMsg else braceScan rest n'

/-- Case-insensitive character comparison for the `/i` regex flag
(ASCII letters). -/
def eqCI (a b : Char) : Bool := a.toLower = b.toLower

/-- Match a reversed literal command pattern (letters case-insensitively,
the backslash exactly) against the head of a reversed input. -/
def matchRevCmd : List Char → List Char → Bool
  | [], _ => true
  | _ :: _, [] => false
  | p :: ps, c :: cs =>
      (if p = '\\' then decide (c = '\\') else eqCI c p) && matchRevCmd ps cs

/-- `\frac` reversed, ending in its backslash. -/
def revFrac : List Char := ['c', 'a', 'r', 'f', '\\']

/-- `\sqrt` reversed, ending in its backslash. -/
def revSqrt : List Char := ['t', 'r', 'q', 's', '\\']

/-- `/\\frac\s*$/i` (line 71): the string ends with `\frac` followed only
by whitespace; tested on the reversed input. -/
def endsFracBare (s : List Char) : Bool :=
  matchRevCmd revFrac (s.reverse.dropWhile isWSJS)

/-- `/\\sqrt\s*$/i` (line 72): the string ends with `\sqrt` followed only
by whitespace; tested on the reversed input. -/
def endsSqrtBare (s : List Char) : Bool :=
  matchRevCmd revSqrt (s.reverse.dropWhile isWSJS)

/-- After the opening brace of the single argument (reading the reversed
input), skip whitespace and require `\frac`. -/
def fracBeforeBrace (rest : List Char) : Bool :=
  matchRevCmd revFrac (rest.dropWhile isWSJS)

/-- Walk the reversed interior of the brace group of
`/\\frac\s*\{[^}]*\}\s*$/i`: the interior may not contain `}`, and some
`{` inside it must be preceded (in the original order) by optional
whitespace and `\frac`. -/
def scanFracArg : List Char → Bool
  | [] => false
  | c :: rest =>
      if c = '}' then false
      else (decide (c = '{') && fracBeforeBrace rest) || scanFracArg rest

/-- `/\\frac\s*\{[^}]*\}\s*$/i` (line 73): a `\frac` whose single brace
group, followed only by whitespace, closes the string. -/
def endsFracOneArg (s : List Char) : Bool :=
  match s.reverse.dropWhile isWSJS with
  | '}' :: rest => scanFracArg rest
  | _ => false

/-- The `incompleteCommands` table walk of lines 70-78: the three
end-anchored case-insensitive patterns, tested in order, each with its
message. -/
def incompleteCheck (s : List Char) : Option String :=
  if endsFracBare s then some "Incomplete \\frac command"
  else if endsSqrtBare s then some "Incomplete \\sqrt command"
  else if endsFracOneArg s then some "\\frac needs two arguments"
  else none

/-- One-pass realisation of the `/\\([a-zA-Z]+)/g` exec loop of line 396:
collect every maximal nonempty run of ASCII letters directly following a
backslash, in order.  The second argument is `some acc` while reading the
letters after a backslash. -/
def cmdScan : List Char → Option (List Char) → List (List Char)
  | [], st =>
      match st with
      | some acc => if acc = [] then [] else [acc]
      | none => []
  | c :: rest, none =>
      cmdScan rest (if c = '\\' then some [] else none)
  | c :: rest, some acc =>
      if c.isAlpha then cmdScan rest (some (acc ++ [c]))
      else if acc = [] then cmdScan rest (if c = '\\' then some [] else none)
      else acc :: cmdScan rest (if c = '\\' then some [] else none)

/-- Every command token `\letters` occurring in the expression, in order
of occurrence. -/
def extractCommands (s : List Char) : List (List Char) :=
  cmdScan s none

/-- The `knownCommands` allow-list of lines 81-393 (the recognized
MTMathView / AndroidMath command vocabulary), verbatim. -/
def knownCommands : List String :=
  ["frac", "sqrt", "sum", "prod", "int", "oint", "iint", "iiint",
   "sin", "cos", "tan", "cot", "sec", "csc",
   "arcsin", "arccos", "arctan", "sinh", "cosh", "tanh", "coth",
   "log", "ln", "exp", "lim", "limsup", "liminf", "sup", "inf", "min", "max",
   "alpha", "beta", "gamma", "delta", "epsilon", "varepsilon", "zeta", "eta",
   "theta", "vartheta", "iota", "kappa", "lambda", "mu", "nu", "xi", "pi",
   "varpi", "rho", "varrho", "sigma", "varsigma", "tau", "upsilon", "phi",
   "varphi", "chi", "psi", "omega",
   "Gamma", "Delta", "Theta", "Lambda", "Xi", "Pi", "Sigma", "Upsilon",
   "Phi", "Psi", "Omega",
   "pm", "mp", "times", "div", "cdot", "cdots", "ldots", "vdots", "ddots",
   "ast", "star", "circ", "bullet", "oplus", "ominus", "otimes", "oslash",
   "cap", "cup", "uplus", "sqcap", "sqcup", "vee", "wedge", "setminus", "wr",
   "diamond", "bigtriangleup", "bigtriangledown", "triangleleft",
   "triangleright", "lhd", "rhd", "unlhd", "unrhd",
   "leq", "le", "geq", "ge", "neq", "ne", "sim", "simeq", "approx", "cong",
   "equiv", "prec", "succ", "preceq", "succeq", "ll", "gg",
   "subset", "supset", "subseteq", "supseteq", "sqsubset", "sqsupset",
   "sqsubseteq", "sqsupseteq", "in", "ni", "notin", "vdash", "dashv",
   "models", "perp", "mid", "parallel", "bowtie", "smile", "frown", "propto",
   "leftarrow", "rightarrow", "leftrightarrow", "Leftarrow", "Rightarrow",
   "Leftrightarrow", "longleftarrow", "longrightarrow", "longleftrightarrow",
   "Longleftarrow", "Longrightarrow", "Longleftrightarrow",
   "uparrow", "downarrow", "updownarrow", "Uparrow", "Downarrow",
   "Updownarrow", "nearrow", "searrow", "nwarrow", "swarrow",
   "mapsto", "longmapsto", "hookleftarrow", "hookrightarrow",
   "leftharpoonup", "leftharpoondown", "rightharpoonup", "rightharpoondown",
   "rightleftharpoons", "leadsto",
   "forall", "exists", "nexists", "neg", "lnot", "land", "lor", "top", "bot",
   "emptyset", "varnothing", "infty", "nabla", "partial", "angle", "prime",
   "backprime", "triangle", "square", "blacksquare", "lozenge",
   "blacklozenge", "clubsuit", "diamondsuit", "heartsuit", "spadesuit",
   "flat", "natural", "sharp", "Re", "Im", "wp", "aleph", "beth", "gimel",
   "daleth", "hbar", "ell", "imath", "jmath",
   "left", "right", "big", "Big", "bigg", "Bigg",
   "lbrace", "rbrace", "lbrack", "rbrack", "langle", "rangle", "lceil",
   "rceil", "lfloor", "rfloor", "vert", "Vert", "backslash",
   "overline", "underline", "overbrace", "underbrace",
   "hat", "check", "tilde", "acute", "grave", "dot", "ddot", "breve", "bar",
   "vec", "widehat", "widetilde",
   "text", "textbf", "textit", "textrm", "textsf", "texttt",
   "mathbf", "mathit", "mathrm", "mathsf", "mathtt", "mathbb", "mathcal",
   "mathfrak", "mathscr",
   "binom", "tbinom", "dbinom", "choose", "atop", "over", "above",
   "begin", "end", "matrix", "pmatrix", "bmatrix", "Bmatrix", "vmatrix",
   "Vmatrix", "array", "cases", "aligned", "gathered", "split",
   "hspace", "vspace", "quad", "qquad", "thinspace", "enspace", "kern",
   "mkern", "hfill", "vfill", "hskip", "vskip",
   "color", "textcolor", "colorbox", "fcolorbox",
   "not", "cancel", "bcancel", "xcancel", "cancelto",
   "boxed", "fbox", "frame", "framebox"]

/-- The allow-list as character lists. -/
def knownCommandsL : List (List Char) := knownCommands.map String.toList

/-- `knownCommands.includes(command)` (line 400): case-sensitive
membership. -/
def knownMember (c : List Char) : Bool := knownCommandsL.contains c

/-- The `commandPattern` while loop of lines 396-403: the first extracted
command that is not on the allow-list, if any. -/
def firstUnknown : List (List Char) → Option (List Char)
  | [] => none
  | c :: rest => if knownMember c then firstUnknown rest else some c

/-- The unknown-command check (lines 395-403): diagnostic for the first
command missing from the allow-list. -/
def unknownCheck (s : List Char) : Option String :=
  match firstUnknown (extractCommands s) with
  | some c => some ("Unsupported command: \\" ++ String.mk c)
  | none => none

/-- `validateLatex`, the evolution with the allow-list
(`LatexRenderer.tsx` lines 59-406): brace balance, then the
incomplete-command patterns, then the unknown-command check; the first
failure wins. -/
def validateLatex (latex : List Char) : Option String :=
  match braceScan latex 0 with
  | some e => some e
  | none =>
      match incompleteCheck latex with
      | some e => some e
      | none => unknownCheck latex

/-- `validateLatex`, the evolution without the allow-list check
(`LatexRenderer.tsx` lines 583-603): brace balance, then the
incomplete-command patterns only. -/
def validateLatexBasic (latex : List Char) : Option String :=
  match braceScan latex 0 with
  | some e => some e
  | none => incompleteCheck latex

/-- The empty-input guard of the downstream `LaTeXView` component
(`LaTeXView.tsx` lines 76-80): a LaTeX string that is empty after
trimming is reported as an error before any rendering. -/
def laTeXViewEmptyCheck (latex : List Char) : Option String :=
  if jsTrim latex = [] then some "Empty LaTeX expression" else none

/-! ## Supporting lemmas -/

/-- The net brace balance of a string, as the validator's counter sees it. -/
def braceDelta (s : List Char) : Int :=
  (s.count '{' : Int) - (s.count '}' : Int)

theorem braceScan_msgs : ∀ (s : List Char) (n : Int) (e : String),
    braceScan s n = some e → e = extraBraceMsg ∨ e = missingBraceMsg := by
  intro s
  induction s with
  | nil =>
      intro n e h
      by_cases hn : n > 0 <;> simp [braceScan, hn] at h
      right; exact h.symm
  | cons c rest ih =>
      intro n e h
      rw [braceScan] at h
      by_cases hneg : (if c = '{' then n + 1 else if c = '}' then n - 1 else n) < 0
      · simp [hneg] at h
        left; exact h.symm
      · simp [hneg] at h
        exact ih _ _ h

theorem braceScan_none_balanced : ∀ (s : List Char) (n : Int), 0 ≤ n →
    braceScan s n = none → n + braceDelta s = 0 := by
  intro s
  induction s with
  | nil =>
      intro n hn h
      by_cases hp : n > 0 <;> simp [braceScan, hp] at h
      simp [braceDelta]; omega
  | cons c rest ih =>
      intro n hn h
      rw [braceScan] at h
      by_cases hneg : (if c = '{' then n + 1 else if c = '}' then n - 1 else n) < 0
      · simp [hneg] at h
      · simp [hneg] at h
        have := ih _ (by omega) h
        by_cases hc : c = '{'
        · simp [hc] at hneg this ⊢
          simp [braceDelta, List.count_cons] at this ⊢
          omega
        · by_cases hc2 : c = '}'
          · simp [hc, hc2] at hneg this ⊢
            simp [braceDelta, List.count_cons, hc] at this ⊢
            omega
          · simp [hc, hc2] at hneg this ⊢
            simp [braceDelta, List.count_cons, hc, hc2] at this ⊢
            omega

theorem braceScan_ne_none_of_count (s : List Char)
    (h : s.count '{' ≠ s.count '}') : braceScan s 0 ≠ none := by
  intro hnone
  have := braceScan_none_balanced s 0 le_rfl hnone
  simp [braceDelta] at this
  omega

theorem validateLatex_eq_braceScan (s : List Char) (e : String)
    (h : braceScan s 0 = some e) : validateLatex s = some e := by
  simp [validateLatex, h]

theorem validateLatexBasic_eq_braceScan (s : List Char) (e : String)
    (h : braceScan s 0 = some e) : validateLatexBasic s = some e := by
  simp [validateLatexBasic, h]

theorem firstUnknown_none (l : List (List Char))
    (h : ∀ c ∈ l, knownMember c = true) : firstUnknown l = none := by
  induction l with
  | nil => rfl
  | cons c rest ih =>
      have hc := h c (by simp)
      simp [firstUnknown, hc]
      exact ih fun d hd => h d (by simp [hd])

/-! ## Claims about the pre-validator -/

/-- Claim C4: the two evolutions of the pre-validator diverge exactly on
unknown commands: on `\unknowncommand{x}` the allow-list variant reports
an unsupported command while the variant without that check reports
nothing, and on any input whose commands are all allow-listed the two
variants agree. -/
theorem c4_variant_divergence :
    validateLatex "\\unknowncommand\x7bx\x7d".toList =
        some "Unsupported command: \\unknowncommand"
      ∧ validateLatexBasic "\\unknowncommand\x7bx\x7d".toList = none
      ∧ ∀ s : List Char, (∀ c ∈ extractCommands s, knownMember c = true) →
          validateLatex s = validateLatexBasic s := by
  refine ⟨by decide, by decide, ?_⟩
  intro s h
  unfold validateLatex validateLatexBasic
  cases hb : braceScan s 0 with
  | some e => rfl
  | none =>
      cases hi : incompleteCheck s with
      | some e => rfl
      | none => simp [unknownCheck, firstUnknown_none _ h]

/-- Witness for C4: on `\frac{a}{b}` every command is allow-listed and the
two validator evolutions agree. -/
theorem c4_witness :
    validateLatex "\\frac\x7ba\x7d\x7bb\x7d".toList =
      validateLatexBasic "\\frac\x7ba\x7d\x7bb\x7d".toList :=
  c4_variant_divergence.2.2 _ (by decide)

/-- Claim C5: the validator's brace scan precedes every other check: when
the numbers of opening and closing braces differ, both validator
evolutions return exactly the brace diagnostic (extra or missing closing
brace), never an incomplete- or unknown-command one; in particular
`\sqrt{2 +` gets the missing-closing-brace diagnostic. -/
theorem c5_brace_precedence :
    (∀ s : List Char, s.count '{' ≠ s.count '}' →
        validateLatex s = braceScan s 0 ∧ validateLatexBasic s = braceScan s 0 ∧
          (braceScan s 0 = some extraBraceMsg ∨ braceScan s 0 = some missingBraceMsg))
      ∧ validateLatex "\\sqrt\x7b2 +".toList = some missingBraceMsg
      ∧ validateLatexBasic "\\sqrt\x7b2 +".toList = some missingBraceMsg := by
  refine ⟨?_, by decide, by decide⟩
  intro s hcount
  have hne := braceScan_ne_none_of_count s hcount
  cases hb : braceScan s 0 with
  | none => exact absurd hb hne
  | some e =>
      exact ⟨validateLatex_eq_braceScan s e hb, validateLatexBasic_eq_braceScan s e hb,
        by simpa [hb] using braceScan_msgs s 0 e hb⟩

/-- Witness for C5: the brace-precedence statement applied at the concrete
unbalanced input `\sqrt{2 +`. -/
theorem c5_witness :
    validateLatex "\\sqrt\x7b2 +".toList = braceScan "\\sqrt\x7b2 +".toList 0 :=
  (c5_brace_precedence.1 "\\sqrt\x7b2 +".toList (by decide)).1

/-- Claim C8: `segment` and `validate` are deterministic pure functions:
equal inputs give identical segment lists and identical diagnostics. -/
theorem c8_deterministic :
    ∀ s t : List Char, s = t →
      parseContent s = parseContent t ∧ validateLatex s = validateLatex t ∧
        validateLatexBasic s = validateLatexBasic t := by
  intro s t h
  subst h
  exact ⟨rfl, rfl, rfl⟩

/-- Witness for C8 at a concrete input. -/
theorem c8_witness :
    parseContent "$x$".toList = parseContent "$x$".toList :=
  (c8_deterministic "$x$".toList "$x$".toList rfl).1

/-- Claim C9: the empty expression passes both validator evolutions (no
diagnostic), even though the downstream `LaTeXView` component reports an
empty LaTeX string as an error. -/
theorem c9_empty_valid :
    validateLatex [] = none ∧ validateLatexBasic [] = none ∧
      laTeXViewEmptyCheck [] = some "Empty LaTeX expression" := by
  exact ⟨by decide, by decide, by decide⟩

/-- Claim C10: the incomplete-command patterns match case-insensitively
while the allow-list membership test is case-sensitive: `\FRAC{x}` is
caught by the `\frac needs two arguments` pattern (in both evolutions),
while `\FRAC{x}{y}` passes the patterns and is then rejected by the
case-sensitive allow-list. -/
theorem c10_case_sensitivity :
    validateLatex "\\FRAC\x7bx\x7d".toList = some "\\frac needs two arguments"
      ∧ validateLatexBasic "\\FRAC\x7bx\x7d".toList = some "\\frac needs two arguments"
      ∧ validateLatex "\\FRAC\x7bx\x7d\x7by\x7d".toList =
          some "Unsupported command: \\FRAC" := by
  exact ⟨by decide, by decide, by decide⟩

/-! ## Claims about the segmenter: concrete behaviour -/

theorem runDisplay_no_dollar : ∀ (s : List Char) (pos : Nat), '$' ∉ s →
    runDisplay s pos DState.out = [] := by
  intro s
  induction s with
  | nil => intro pos _; rfl
  | cons c rest ih =>
      intro pos h
      have hc : ¬ c = '$' := fun hc => h (by simp [hc])
      have hr : '$' ∉ rest := fun hr => h (by simp [hr])
      simp [runDisplay, hc, ih _ hr]

theorem runInline_no_dollar : ∀ (s : List Char) (pos : Nat), '$' ∉ s →
    runInline s pos IState.out = [] := by
  intro s
  induction s with
  | nil => intro pos _; rfl
  | cons c rest ih =>
      intro pos h
      have hc : ¬ c = '$' := fun hc => h (by simp [hc])
      have hr : '$' ∉ rest := fun hr => h (by simp [hr])
      simp [runInline, hc, ih _ hr]

theorem allMathMatches_no_dollar (s : List Char) (h : '$' ∉ s) :
    allMathMatches s = [] := by
  simp [allMathMatches, findDisplayMatches, findInlineMatches,
    runDisplay_no_dollar s 0 h, runInline_no_dollar s 0 h,
    pushInlineMatches, sortByStart]

theorem parseContent_of_no_matches (s : List Char) (h : allMathMatches s = []) :
    parseContent s = [⟨PartType.text, s, none⟩] := by
  by_cases hl : 0 < s.length
  · simp [parseContent, h, buildLoop, hl]
  · have hs : s = [] := by
      cases s with
      | nil => rfl
      | cons c r => simp at hl
    subst hs
    simp [parseContent, h, buildLoop]

/-- Claim C7: whenever no math candidate survives — in particular for every
string without a dollar sign, and for the empty string — `parseContent`
returns exactly one text segment holding the entire unmodified input. -/
theorem c7_no_math_single_text :
    (∀ s : List Char, allMathMatches s = [] →
        parseContent s = [⟨PartType.text, s, none⟩])
      ∧ (∀ s : List Char, '$' ∉ s → parseContent s = [⟨PartType.text, s, none⟩])
      ∧ parseContent [] = [⟨PartType.text, [], none⟩] := by
  refine ⟨parseContent_of_no_matches, ?_, by decide⟩
  intro s h
  exact parseContent_of_no_matches s (allMathMatches_no_dollar s h)

/-- Witness for C7 at a dollar-free concrete input. -/
theorem c7_witness :
    parseContent "hello world".toList =
      [⟨PartType.text, "hello world".toList, none⟩] :=
  c7_no_math_single_text.2.1 "hello world".toList (by decide)

/-- Counterexample for C1: on
`The total cost is $500 and the discount is $50.` the segmenter does
not return a single text segment: the two dollar signs pair up as inline
delimiters around `500 and the discount is`, whose trimmed interior is
not purely numeric, so the currency heuristic does not fire. -/
theorem c1_counterexample :
    parseContent "The total cost is $500 and the discount is $50.".toList ≠
      [⟨PartType.text, "The total cost is $500 and the discount is $50.".toList,
        none⟩] := by
  decide

/-- Claim C1 (amended): `segment("The total cost is $500 and the discount
is $50.")` returns Text `The total cost is `, inline Math
`500 and the discount is`, Text `50.`: the currency heuristic only
protects a `$...$` span whose whole interior is a single numeric token,
and here the two dollars pair across the sentence. -/
theorem c1_amended :
    parseContent "The total cost is $500 and the discount is $50.".toList =
      [⟨PartType.text, "The total cost is ".toList, none⟩,
       ⟨PartType.latex, "500 and the discount is".toList, some false⟩,
       ⟨PartType.text, "50.".toList, none⟩] := by
  decide

/-- Claim C6: inline-math detection forbids `$` inside the span, so
`$a$b$c$` segments as inline Math `a`, Text `b`, inline Math `c`. -/
theorem c6_inline_split :
    parseContent "$a$b$c$".toList =
      [⟨PartType.latex, ['a'], some false⟩,
       ⟨PartType.text, ['b'], none⟩,
       ⟨PartType.latex, ['c'], some false⟩] := by
  decide

/-! ## Span invariants of the scanners -/

theorem drop_cons_succ {l : List Char} {p : Nat} {c : Char} {r : List Char}
    (h : l.drop p = c :: r) : l.drop (p + 1) = r := by
  have h2 : (l.drop p).drop 1 = r := by rw [h]; rfl
  rw [List.drop_drop] at h2
  exact h2

theorem getElem?_of_drop {l : List Char} {p : Nat} {c : Char} {r : List Char}
    (h : l.drop p = c :: r) : l[p]? = some c := by
  have h0 : (l.drop p)[0]? = some c := by rw [h]; simp
  rwa [List.getElem?_drop, Nat.add_zero] at h0

/-- Reachability invariant of the display scanner: the recorded start of a
pending candidate points at a `$$` opener that the scanner has passed. -/
def DInv (content : List Char) (pos : Nat) : DState → Prop
  | DState.out => True
  | DState.halfOpen p => pos = p + 1 ∧ content[p]? = some '$'
  | DState.inside p _ =>
      content[p]? = some '$' ∧ content[p + 1]? = some '$' ∧ p + 2 ≤ pos
  | DState.closing p _ =>
      content[p]? = some '$' ∧ content[p + 1]? = some '$' ∧ p + 3 ≤ pos

/-- Lower bound on the start offset of any match the display scanner can
still emit from a given state. -/
def dLB (pos : Nat) : DState → Nat
  | DState.out => pos
  | DState.halfOpen p => p
  | DState.inside p _ => p
  | DState.closing p _ => p

theorem runDisplay_facts (content : List Char) (s : List Char) :
    ∀ (pos : Nat) (st : DState),
      content.drop pos = s → DInv content pos st →
      (∀ m ∈ runDisplay s pos st,
          dLB pos st ≤ m.start ∧ m.start + 4 ≤ m.stop ∧
            content[m.start]? = some '$' ∧ content[m.start + 1]? = some '$') ∧
        List.Pairwise (fun a b : MathMatch => a.start < b.start)
          (runDisplay s pos st) := by
  induction s with
  | nil => intro pos st _ _; simp [runDisplay]
  | cons c rest ih =>
    intro pos st hdrop hinv
    have hdrop1 : content.drop (pos + 1) = rest := drop_cons_succ hdrop
    have hc0 : content[pos]? = some c := getElem?_of_drop hdrop
    cases st with
    | out =>
        by_cases hc : c = '$'
        · have hinv' : DInv content (pos + 1) (DState.halfOpen pos) :=
            ⟨rfl, by rw [hc0, hc]⟩
          have h := ih (pos + 1) (DState.halfOpen pos) hdrop1 hinv'
          refine ⟨fun m hm => ?_, by simpa [runDisplay, hc] using h.2⟩
          have hm' : m ∈ runDisplay rest (pos + 1) (DState.halfOpen pos) := by
            simpa [runDisplay, hc] using hm
          exact h.1 m hm'
        · have h := ih (pos + 1) DState.out hdrop1 trivial
          refine ⟨fun m hm => ?_, by simpa [runDisplay, hc] using h.2⟩
          have hm' : m ∈ runDisplay rest (pos + 1) DState.out := by
            simpa [runDisplay, hc] using hm
          obtain ⟨h1, h2, h3, h4⟩ := h.1 m hm'
          have h1' : pos + 1 ≤ m.start := h1
          exact ⟨by show pos ≤ m.start; omega, h2, h3, h4⟩
    | halfOpen p =>
        obtain ⟨hpe, hp0⟩ := hinv
        by_cases hc : c = '$'
        · have hp1 : content[p + 1]? = some '$' := by rw [← hpe, hc0, hc]
          have h := ih (pos + 1) (DState.inside p []) hdrop1 ⟨hp0, hp1, by omega⟩
          refine ⟨fun m hm => ?_, by simpa [runDisplay, hc] using h.2⟩
          have hm' : m ∈ runDisplay rest (pos + 1) (DState.inside p []) := by
            simpa [runDisplay, hc] using hm
          exact h.1 m hm'
        · have h := ih (pos + 1) DState.out hdrop1 trivial
          refine ⟨fun m hm => ?_, by simpa [runDisplay, hc] using h.2⟩
          have hm' : m ∈ runDisplay rest (pos + 1) DState.out := by
            simpa [runDisplay, hc] using hm
          obtain ⟨h1, h2, h3, h4⟩ := h.1 m hm'
          have h1' : pos + 1 ≤ m.start := h1
          exact ⟨by show p ≤ m.start; omega, h2, h3, h4⟩
    | inside p acc =>
        obtain ⟨hp0, hp1, hple⟩ := hinv
        by_cases hc : c = '$'
        · have h := ih (pos + 1) (DState.closing p acc) hdrop1 ⟨hp0, hp1, by omega⟩
          refine ⟨fun m hm => ?_, by simpa [runDisplay, hc] using h.2⟩
          have hm' : m ∈ runDisplay rest (pos + 1) (DState.closing p acc) := by
            simpa [runDisplay, hc] using hm
          exact h.1 m hm'
        · have h := ih (pos + 1) (DState.inside p (acc ++ [c])) hdrop1
            ⟨hp0, hp1, by omega⟩
          refine ⟨fun m hm => ?_, by simpa [runDisplay, hc] using h.2⟩
          have hm' : m ∈ runDisplay rest (pos + 1) (DState.inside p (acc ++ [c])) := by
            simpa [runDisplay, hc] using hm
          exact h.1 m hm'
    | closing p acc =>
        obtain ⟨hp0, hp1, hple⟩ := hinv
        by_cases hc : c = '$'
        · have h := ih (pos + 1) DState.out hdrop1 trivial
          refine ⟨fun m hm => ?_, ?_⟩
          · have hm' : m = (⟨p, pos + 1, jsTrim acc, true⟩ : MathMatch) ∨
                m ∈ runDisplay rest (pos + 1) DState.out := by
              simpa [runDisplay, hc] using hm
            rcases hm' with rfl | hm'
            · exact ⟨le_rfl, by show p + 4 ≤ pos + 1; omega, hp0, hp1⟩
            · obtain ⟨h1, h2, h3, h4⟩ := h.1 m hm'
              have h1' : pos + 1 ≤ m.start := h1
              exact ⟨by show p ≤ m.start; omega, h2, h3, h4⟩
          · have hrw : runDisplay (c :: rest) pos (DState.closing p acc) =
                (⟨p, pos + 1, jsTrim acc, true⟩ : MathMatch) ::
                  runDisplay rest (pos + 1) DState.out := by
              simp [runDisplay, hc]
            rw [hrw]
            refine List.Pairwise.cons ?_ h.2
            intro b hb
            have h1' : pos + 1 ≤ b.start := (h.1 b hb).1
            show p < b.start
            omega
        · have h := ih (pos + 1) (DState.inside p (acc ++ ['$', c])) hdrop1
            ⟨hp0, hp1, by omega⟩
          refine ⟨fun m hm => ?_, by simpa [runDisplay, hc] using h.2⟩
          have hm' : m ∈ runDisplay rest (pos + 1)
              (DState.inside p (acc ++ ['$', c])) := by
            simpa [runDisplay, hc] using hm
          exact h.1 m hm'

/-- Reachability invariant of the inline scanner: a pending candidate's
start points at a `$`, and once the interior is nonempty the character
after the opener is fixed and is not a `$`. -/
def IInv (content : List Char) (pos : Nat) : IState → Prop
  | IState.out => True
  | IState.inside p acc =>
      content[p]? = some '$' ∧ (acc = [] → pos = p + 1) ∧
        (acc ≠ [] → p + 2 ≤ pos ∧ ∃ c, content[p + 1]? = some c ∧ c ≠ '$')

/-- Lower bound on the start offset of any match the inline scanner can
still emit from a given state. -/
def iLB (pos : Nat) : IState → Nat
  | IState.out => pos
  | IState.inside p _ => p

theorem runInline_facts (content : List Char) (s : List Char) :
    ∀ (pos : Nat) (st : IState),
      content.drop pos = s → IInv content pos st →
      (∀ m ∈ runInline s pos st,
          iLB pos st ≤ m.start ∧ m.start + 3 ≤ m.stop ∧
            content[m.start]? = some '$' ∧
            ∃ c, content[m.start + 1]? = some c ∧ c ≠ '$') ∧
        List.Pairwise (fun a b : MathMatch => a.start < b.start)
          (runInline s pos st) := by
  induction s with
  | nil => intro pos st _ _; simp [runInline]
  | cons c rest ih =>
    intro pos st hdrop hinv
    have hdrop1 : content.drop (pos + 1) = rest := drop_cons_succ hdrop
    have hc0 : content[pos]? = some c := getElem?_of_drop hdrop
    cases st with
    | out =>
        by_cases hc : c = '$'
        · have hinv' : IInv content (pos + 1) (IState.inside pos []) :=
            ⟨by rw [hc0, hc], fun _ => rfl, fun hx => absurd rfl hx⟩
          have h := ih (pos + 1) (IState.inside pos []) hdrop1 hinv'
          refine ⟨fun m hm => ?_, by simpa [runInline, hc] using h.2⟩
          have hm' : m ∈ runInline rest (pos + 1) (IState.inside pos []) := by
            simpa [runInline, hc] using hm
          obtain ⟨h1, h2, h3, h4⟩ := h.1 m hm'
          have h1' : pos ≤ m.start := h1
          exact ⟨h1', h2, h3, h4⟩
        · have h := ih (pos + 1) IState.out hdrop1 trivial
          refine ⟨fun m hm => ?_, by simpa [runInline, hc] using h.2⟩
          have hm' : m ∈ runInline rest (pos + 1) IState.out := by
            simpa [runInline, hc] using hm
          obtain ⟨h1, h2, h3, h4⟩ := h.1 m hm'
          have h1' : pos + 1 ≤ m.start := h1
          exact ⟨by show pos ≤ m.start; omega, h2, h3, h4⟩
    | inside p acc =>
        obtain ⟨hp0, hemp, hne⟩ := hinv
        by_cases hc : c = '$'
        · by_cases ha : acc = []
          · have hpe := hemp ha
            have hinv' : IInv content (pos + 1) (IState.inside pos []) :=
              ⟨by rw [hc0, hc], fun _ => rfl, fun hx => absurd rfl hx⟩
            have h := ih (pos + 1) (IState.inside pos []) hdrop1 hinv'
            refine ⟨fun m hm => ?_, by simpa [runInline, hc, ha] using h.2⟩
            have hm' : m ∈ runInline rest (pos + 1) (IState.inside pos []) := by
              simpa [runInline, hc, ha] using hm
            obtain ⟨h1, h2, h3, h4⟩ := h.1 m hm'
            have h1' : pos ≤ m.start := h1
            exact ⟨by show p ≤ m.start; omega, h2, h3, h4⟩
          · obtain ⟨hple, c1, hc1, hc1ne⟩ := hne ha
            have h := ih (pos + 1) IState.out hdrop1 trivial
            refine ⟨fun m hm => ?_, ?_⟩
            · have hm' : m = (⟨p, pos + 1, jsTrim acc, false⟩ : MathMatch) ∨
                  m ∈ runInline rest (pos + 1) IState.out := by
                simpa [runInline, hc, ha] using hm
              rcases hm' with rfl | hm'
              · exact ⟨le_rfl, by show p + 3 ≤ pos + 1; omega, hp0, c1, hc1, hc1ne⟩
              · obtain ⟨h1, h2, h3, h4⟩ := h.1 m hm'
                have h1' : pos + 1 ≤ m.start := h1
                exact ⟨by show p ≤ m.start; omega, h2, h3, h4⟩
            · have hrw : runInline (c :: rest) pos (IState.inside p acc) =
                  (⟨p, pos + 1, jsTrim acc, false⟩ : MathMatch) ::
                    runInline rest (pos + 1) IState.out := by
                simp [runInline, hc, ha]
              rw [hrw]
              refine List.Pairwise.cons ?_ h.2
              intro b hb
              have h1' : pos + 1 ≤ b.start := (h.1 b hb).1
              show p < b.start
              omega
        · have hinv' : IInv content (pos + 1) (IState.inside p (acc ++ [c])) := by
            refine ⟨hp0, fun hx => absurd hx (by simp), fun _ => ?_⟩
            by_cases ha : acc = []
            · have hpe := hemp ha
              refine ⟨by omega, c, ?_, hc⟩
              rw [← hpe]
              exact hc0
            · obtain ⟨hple, c1, hc1, hc1ne⟩ := hne ha
              exact ⟨by omega, c1, hc1, hc1ne⟩
          have h := ih (pos + 1) (IState.inside p (acc ++ [c])) hdrop1 hinv'
          refine ⟨fun m hm => ?_, by simpa [runInline, hc] using h.2⟩
          have hm' : m ∈ runInline rest (pos + 1) (IState.inside p (acc ++ [c])) := by
            simpa [runInline, hc] using hm
          exact h.1 m hm'

theorem display_facts (content : List Char) :
    (∀ m ∈ findDisplayMatches content, m.start + 4 ≤ m.stop ∧
        content[m.start]? = some '$' ∧ content[m.start + 1]? = some '$') ∧
      List.Pairwise (fun a b : MathMatch => a.start < b.start)
        (findDisplayMatches content) := by
  have h := runDisplay_facts content content 0 DState.out (by simp) trivial
  exact ⟨fun m hm =>
    ⟨(h.1 m hm).2.1, (h.1 m hm).2.2.1, (h.1 m hm).2.2.2⟩, h.2⟩

theorem inline_facts (content : List Char) :
    (∀ m ∈ findInlineMatches content, m.start + 3 ≤ m.stop ∧
        content[m.start]? = some '$' ∧
        ∃ c, content[m.start + 1]? = some c ∧ c ≠ '$') ∧
      List.Pairwise (fun a b : MathMatch => a.start < b.start)
        (findInlineMatches content) := by
  have h := runInline_facts content content 0 IState.out (by simp) trivial
  exact ⟨fun m hm =>
    ⟨(h.1 m hm).2.1, (h.1 m hm).2.2.1, (h.1 m hm).2.2.2⟩, h.2⟩

theorem pushInline_sublist : ∀ (l acc : List MathMatch),
    ∃ l', l'.Sublist l ∧ pushInlineMatches acc l = acc ++ l' := by
  intro l
  induction l with
  | nil => intro acc; exact ⟨[], List.nil_sublist _, by simp [pushInlineMatches]⟩
  | cons m rest ih =>
      intro acc
      by_cases h1 : (acc.any fun dm =>
          decide (dm.start < m.start) && decide (m.start < dm.stop)) = true
      · obtain ⟨l', hs, he⟩ := ih acc
        exact ⟨l', List.Sublist.cons m hs, by simp [pushInlineMatches, h1, he]⟩
      · by_cases h2 : isCurrency m.content = true
        · obtain ⟨l', hs, he⟩ := ih acc
          exact ⟨l', List.Sublist.cons m hs, by simp [pushInlineMatches, h1, h2, he]⟩
        · obtain ⟨l', hs, he⟩ := ih (acc ++ [m])
          refine ⟨m :: l', List.Sublist.cons₂ m hs, ?_⟩
          simp [pushInlineMatches, h1, h2, he]

theorem insertByStart_perm (m : MathMatch) :
    ∀ l, List.Perm (insertByStart m l) (m :: l) := by
  intro l
  induction l with
  | nil => exact List.Perm.refl _
  | cons x xs ih =>
      rw [insertByStart]
      by_cases h : m.start ≤ x.start
      · simp only [h, if_true]
        exact List.Perm.refl _
      · simp only [h, if_false]
        exact (ih.cons x).trans (List.Perm.swap m x xs)

theorem sortByStart_perm : ∀ l, List.Perm (sortByStart l) l := by
  intro l
  induction l with
  | nil => exact List.Perm.refl _
  | cons m xs ih =>
      exact (insertByStart_perm m (sortByStart xs)).trans (ih.cons m)

theorem insertByStart_sorted (m : MathMatch) :
    ∀ l, List.Pairwise (fun a b : MathMatch => a.start ≤ b.start) l →
      List.Pairwise (fun a b : MathMatch => a.start ≤ b.start)
        (insertByStart m l) := by
  intro l
  induction l with
  | nil => intro _; simp [insertByStart]
  | cons x xs ih =>
      intro h
      rcases List.pairwise_cons.mp h with ⟨hx, hxs⟩
      rw [insertByStart]
      by_cases hle : m.start ≤ x.start
      · simp only [hle, if_true]
        refine List.Pairwise.cons ?_ h
        intro b hb
        rcases List.mem_cons.mp hb with rfl | hb
        · exact hle
        · exact le_trans hle (hx b hb)
      · simp only [hle, if_false]
        refine List.Pairwise.cons ?_ (ih hxs)
        intro b hb
        have hb' : b = m ∨ b ∈ xs := by
          have := (insertByStart_perm m xs).mem_iff.mp hb
          simpa using this
        rcases hb' with rfl | hb'
        · omega
        · exact hx b hb'

theorem sortByStart_sorted :
    ∀ l, List.Pairwise (fun a b : MathMatch => a.start ≤ b.start) (sortByStart l) := by
  intro l
  induction l with
  | nil => simp [sortByStart]
  | cons m xs ih => exact insertByStart_sorted m (sortByStart xs) ih

theorem allMathMatches_lt (content : List Char) :
    List.Pairwise (fun a b : MathMatch => a.start < b.start)
      (allMathMatches content) := by
  obtain ⟨l', hsub, hpush⟩ :=
    pushInline_sublist (findInlineMatches content) (findDisplayMatches content)
  have hd := display_facts content
  have hi := inline_facts content
  have hne : List.Pairwise (fun a b : MathMatch => a.start ≠ b.start)
      (findDisplayMatches content ++ l') := by
    rw [List.pairwise_append]
    refine ⟨hd.2.imp (fun h => Nat.ne_of_lt h),
      ((hi.2).sublist hsub).imp (fun h => Nat.ne_of_lt h), ?_⟩
    intro a ha b hb heq
    have ha2 := (hd.1 a ha).2.2
    obtain ⟨c, hc, hcne⟩ := (hi.1 b (hsub.subset hb)).2.2
    rw [heq] at ha2
    rw [ha2] at hc
    exact hcne (Option.some.inj hc).symm
  have hsymm : Symmetric (fun a b : MathMatch => a.start ≠ b.start) :=
    fun _ _ h => Ne.symm h
  have hne2 : List.Pairwise (fun a b : MathMatch => a.start ≠ b.start)
      (allMathMatches content) := by
    have hgoal : List.Pairwise (fun a b : MathMatch => a.start ≠ b.start)
        (sortByStart (pushInlineMatches (findDisplayMatches content)
          (findInlineMatches content))) := by
      rw [hpush]
      exact ((sortByStart_perm _).pairwise_iff (fun h => Ne.symm h)).mpr hne
    exact hgoal
  have hle : List.Pairwise (fun a b : MathMatch => a.start ≤ b.start)
      (allMathMatches content) := sortByStart_sorted _
  exact (hle.and hne2).imp (fun h => lt_of_le_of_ne h.1 h.2)

theorem allMathMatches_start_lt_stop (content : List Char) :
    ∀ m ∈ allMathMatches content, m.start < m.stop := by
  intro m hm
  obtain ⟨l', hsub, hpush⟩ :=
    pushInline_sublist (findInlineMatches content) (findDisplayMatches content)
  have hm2 : m ∈ pushInlineMatches (findDisplayMatches content)
      (findInlineMatches content) := (sortByStart_perm _).subset hm
  rw [hpush] at hm2
  rcases List.mem_append.mp hm2 with h | h
  · have := ((display_facts content).1 m h).1
    omega
  · have := ((inline_facts content).1 m (hsub.subset h)).1
    omega

theorem buildSpans_head_fst (len : Nat) (ms : List MathMatch) (cur : Nat)
    (sp : Nat × Nat) (h : (buildSpans len ms cur).head? = some sp) :
    sp.1 = cur ∨ ∃ m ∈ ms, sp.1 = m.start := by
  cases ms with
  | nil =>
      by_cases hl : cur < len
      · simp [buildSpans, hl] at h
        left
        rw [← h]
      · simp [buildSpans, hl] at h
  | cons m rest =>
      by_cases hg : cur < m.start
      · simp [buildSpans, hg] at h
        left
        rw [← h]
      · simp [buildSpans, hg] at h
        right
        exact ⟨m, by simp, by rw [← h]⟩

theorem buildSpans_chain (len : Nat) :
    ∀ (ms : List MathMatch) (cur : Nat),
      List.Pairwise (fun a b : MathMatch => a.start < b.start) ms →
      (∀ m ∈ ms, m.start < m.stop) →
      List.Chain' (fun a b : Nat × Nat => a.1 < b.1) (buildSpans len ms cur) := by
  intro ms
  induction ms with
  | nil =>
      intro cur _ _
      by_cases hl : cur < len <;> simp [buildSpans, hl]
  | cons m rest ih =>
      intro cur hpw hlt
      have hchain := ih m.stop (List.Pairwise.of_cons hpw)
        (fun x hx => hlt x (List.mem_cons_of_mem _ hx))
      have hlink : ∀ sp ∈ (buildSpans len rest m.stop).head?, m.start < sp.1 := by
        intro sp hsp
        rcases buildSpans_head_fst len rest m.stop sp hsp with h | ⟨m2, hm2, h⟩
        · rw [h]
          exact hlt m (List.mem_cons_self _ _)
        · rw [h]
          exact List.rel_of_pairwise_cons hpw hm2
      have hcons : List.Chain' (fun a b : Nat × Nat => a.1 < b.1)
          ((m.start, m.stop) :: buildSpans len rest m.stop) :=
        List.chain'_cons'.mpr ⟨hlink, hchain⟩
      by_cases hg : cur < m.start
      · have hrw : buildSpans len (m :: rest) cur =
            (cur, m.start) :: (m.start, m.stop) :: buildSpans len rest m.stop := by
          simp [buildSpans, hg]
        rw [hrw]
        exact List.chain'_cons'.mpr ⟨fun y hy => by simp at hy; rw [← hy]; exact hg, hcons⟩
      · have hrw : buildSpans len (m :: rest) cur =
            (m.start, m.stop) :: buildSpans len rest m.stop := by
          simp [buildSpans, hg]
        rw [hrw]
        exact hcons

theorem buildLoop_spans_length (content : List Char) :
    ∀ (ms : List MathMatch) (cur : Nat),
      (buildLoop content ms cur).1.length +
          (if (buildLoop content ms cur).2 < content.length then 1 else 0) =
        (buildSpans content.length ms cur).length := by
  intro ms
  induction ms with
  | nil =>
      intro cur
      by_cases h : cur < content.length <;> simp [buildLoop, buildSpans, h]
  | cons m rest ih =>
      intro cur
      have hih := ih m.stop
      by_cases hg : cur < m.start <;>
        by_cases hf : (buildLoop content rest m.stop).2 < content.length <;>
          simp [buildLoop, buildSpans, hg, hf] at hih ⊢ <;> omega

theorem parseSpans_length (content : List Char) :
    (parseSpans content).length = (parseContent content).length := by
  have h := buildLoop_spans_length content (allMathMatches content) 0
  by_cases hf : (buildLoop content (allMathMatches content) 0).2 < content.length
  · have hlen : (buildLoop content (allMathMatches content) 0).1.length + 1 =
        (buildSpans content.length (allMathMatches content) 0).length := by
      simpa [hf] using h
    have hspne : buildSpans content.length (allMathMatches content) 0 ≠ [] := by
      intro h0
      rw [h0] at hlen
      simp at hlen
    simp [parseContent, parseSpans, hf, hspne]
    omega
  · have hlen : (buildLoop content (allMathMatches content) 0).1.length =
        (buildSpans content.length (allMathMatches content) 0).length := by
      simpa [hf] using h
    by_cases hsp : buildSpans content.length (allMathMatches content) 0 = []
    · have hps : (buildLoop content (allMathMatches content) 0).1 = [] := by
        rw [hsp] at hlen
        simpa using hlen
      simp [parseContent, parseSpans, hf, hsp, hps]
    · have hpne : (buildLoop content (allMathMatches content) 0).1 ≠ [] := by
        intro h0
        rw [h0] at hlen
        simp at hlen
        exact hsp (List.length_eq_zero.mp hlen.symm)
      simp [parseContent, parseSpans, hf, hsp, hpne]
      omega

/-- Counterexample for C2: on `$a$$b$$c$` the surviving inline candidate
`$a$` (span `[0,3)`) and the display candidate `$$b$$` (span `[2,7)`)
overlap in the source: the `$` at offset 2 closes the inline span and
opens the display span, so the emitted segments' spans are not pairwise
disjoint. -/
theorem c2_counterexample :
    parseSpans "$a$$b$$c$".toList = [(0, 3), (2, 7), (7, 9)] ∧
      ¬ List.Chain' (fun a b : Nat × Nat => a.2 ≤ b.1)
          (parseSpans "$a$$b$$c$".toList) := by
  refine ⟨by decide, ?_⟩
  intro h
  rw [show parseSpans "$a$$b$$c$".toList = [(0, 3), (2, 7), (7, 9)] from by decide] at h
  have h32 := (List.chain'_cons.mp h).1
  omega

/-- Claim C2 (amended): the source spans of the segments returned by
`parseContent` have strictly increasing start positions (and there are as
many spans as segments), but the spans need not be disjoint: an inline
candidate that starts before a display span and ends inside it survives
the filter, so one source character can be covered by two Math segments. -/
theorem c2_amended (content : List Char) :
    List.Chain' (fun a b : Nat × Nat => a.1 < b.1) (parseSpans content) ∧
      (parseSpans content).length = (parseContent content).length := by
  refine ⟨?_, parseSpans_length content⟩
  unfold parseSpans
  by_cases hsp : buildSpans content.length (allMathMatches content) 0 = []
  · simp [hsp]
  · simp only [hsp, if_neg, ite_false]
    exact buildSpans_chain content.length (allMathMatches content) 0
      (allMathMatches_lt content) (allMathMatches_start_lt_stop content)

theorem drop_split (l : List Char) {a b : Nat} (hab : a ≤ b) :
    l.drop a = substrJS l a b ++ l.drop b := by
  unfold substrJS
  conv_lhs => rw [← List.take_append_drop b l]
  rw [List.drop_append_eq_append_drop]
  by_cases h : a ≤ (l.take b).length
  · have h0 : a - (l.take b).length = 0 := by omega
    rw [h0, List.drop_zero]
  · have hlen : (l.take b).length = min b l.length := List.length_take b l
    have hble : l.length ≤ b := by
      rcases Nat.le_total b l.length with hb | hb
      · rw [hlen, Nat.min_eq_left hb] at h
        omega
      · exact hb
    have hdrop : l.drop b = [] := List.drop_eq_nil_of_le hble
    rw [hdrop]
    simp

theorem reconLoop_eq (content : List Char) :
    ∀ (ms : List MathMatch) (cur : Nat),
      (∀ m ∈ ms, m.start ≤ m.stop) →
      List.Chain' (fun a b : MathMatch => a.stop ≤ b.start) ms →
      (∀ m ∈ ms.head?, cur ≤ m.start) →
      reconLoop content ms cur = content.drop cur := by
  intro ms
  induction ms with
  | nil => intro cur _ _ _; rfl
  | cons m rest ih =>
      intro cur hle hch hhd
      have hcur : cur ≤ m.start := hhd m rfl
      have hnext : ∀ m2 ∈ rest.head?, m.stop ≤ m2.start :=
        (List.chain'_cons'.mp hch).1
      have hrec := ih m.stop (fun x hx => hle x (List.mem_cons_of_mem _ hx))
        (List.chain'_cons'.mp hch).2 hnext
      rw [reconLoop, hrec]
      rw [drop_split content hcur, drop_split content (hle m (List.mem_cons_self _ _))]
      simp [List.append_assoc]

/-- Counterexample for C3: on `$a$$b$$c$` the read-back of the emitted
segments (each segment contributing the original text of its source span,
i.e. contents with the stripped delimiters and whitespace re-added) emits
the shared `$` at offset 2 twice, so it does not reconstruct the input. -/
theorem c3_counterexample :
    reconstructSegments "$a$$b$$c$".toList = "$a$$$b$$c$".toList ∧
      reconstructSegments "$a$$b$$c$".toList ≠ "$a$$b$$c$".toList := by
  exact ⟨by decide, by decide⟩

/-- Claim C3 (amended): whenever the surviving sorted candidates are
pairwise non-overlapping (each one ends no later than the next starts),
concatenating the segments' contents with the stripped delimiters and the
original whitespace boundaries re-added reconstructs the input exactly;
when an inline candidate overlaps a display opener the shared `$`
delimiter is emitted twice and reconstruction fails. -/
theorem c3_amended (content : List Char)
    (h : List.Chain' (fun a b : MathMatch => a.stop ≤ b.start)
      (allMathMatches content)) :
    reconstructSegments content = content := by
  unfold reconstructSegments
  have hrec := reconLoop_eq content (allMathMatches content) 0
    (fun m hm => Nat.le_of_lt (allMathMatches_start_lt_stop content m hm)) h
    (fun m _ => Nat.zero_le _)
  simpa using hrec

/-- Witness for C3 at a concrete mixed input with disjoint candidates. -/
theorem c3_witness :
    reconstructSegments "ab $x$ cd $$ y $$ ef".toList =
      "ab $x$ cd $$ y $$ ef".toList := by
  apply c3_amended
  rw [show allMathMatches "ab $x$ cd $$ y $$ ef".toList =
      [⟨3, 6, ['x'], false⟩, ⟨10, 17, ['y'], true⟩] from by decide]
  exact List.chain'_cons.mpr ⟨by decide, by simp⟩

end LatexRenderer
